import Mathlib

/-!
Shallow embedding of `orbitize/priors.py`: the prior probability
distributions (Gaussian, Jeffreys, Uniform, Sine, Linear) and the
`all_lnpriors` aggregator.

Modelling conventions:
* Python / numpy floats are modelled as real numbers; the only non-finite
  float produced by this module, `-np.inf`, is modelled by the extra
  constructor `FVal.negInf`.
* A numpy value is either a scalar or a one-dimensional array (`NPVal`);
  inputs to `compute_lnprob` carry real entries (`NPIn`).
* `np.random` draws are modelled by passing the drawn values explicitly as a
  list; the distributional guarantee of a draw (for example uniform in
  `[-1, 1]`) becomes a hypothesis on that list in the theorems.
* `LinearPrior`'s method bodies are `pass`, so a call returns Python `None`;
  that is modelled by `Option` results, with `none` for `None`.
-/

noncomputable section

/-- A float value appearing in a log-probability result: a finite real, or
negative infinity (`-np.inf`). -/
inductive FVal where
  | fin (x : ℝ)
  | negInf

instance : Inhabited FVal := ⟨FVal.negInf⟩

/-- Float addition restricted to the values this module produces: negative
infinity absorbs any summand (IEEE `-inf + y = -inf` for finite `y`). -/
def FVal.add : FVal → FVal → FVal
  | .fin a, .fin b => .fin (a + b)
  | _, _ => .negInf

/-- A numpy value: a scalar or a one-dimensional array. -/
inductive NPVal where
  | scalar (v : FVal)
  | arr (vs : List FVal)

def NPVal.isScalar : NPVal → Bool
  | .scalar _ => true
  | .arr _ => false

def NPVal.isArr : NPVal → Bool
  | .scalar _ => false
  | .arr _ => true

/-- numpy `+` on the shapes exercised by `all_lnpriors`: scalars add
elementwise with arrays (broadcasting), and a length-one array broadcasts
against a longer one.  (numpy raises on incompatible lengths; every array
added in this module has length one, so that case never occurs, and the
model pairs positionally there.) -/
def npAdd : NPVal → NPVal → NPVal
  | .scalar a, .scalar b => .scalar (FVal.add a b)
  | .scalar a, .arr bs => .arr (bs.map fun b => FVal.add a b)
  | .arr as, .scalar b => .arr (as.map fun a => FVal.add a b)
  | .arr as, .arr bs =>
      if as.length = 1 ∧ bs.length ≠ 1 then
        .arr (bs.map fun b => FVal.add as.headI b)
      else if bs.length = 1 ∧ as.length ≠ 1 then
        .arr (as.map fun a => FVal.add a bs.headI)
      else .arr (List.zipWith FVal.add as bs)

/-- Input to `compute_lnprob`: a real scalar or an array of reals. -/
inductive NPIn where
  | scalar (x : ℝ)
  | arr (xs : List ℝ)

/-- `np.size`: a scalar has size 1, an array its length. -/
def NPIn.size : NPIn → ℕ
  | .scalar _ => 1
  | .arr xs => xs.length

/-- The elements of the input; a scalar behaves as a single element for
elementwise comparison and `np.where` indexing. -/
def NPIn.toList : NPIn → List ℝ
  | .scalar x => [x]
  | .arr xs => xs

/-- `GaussianPrior.__init__` stores the mean and standard deviation. -/
structure GaussianPrior where
  mu : ℝ
  sigma : ℝ

/-- `GaussianPrior.compute_lnprob`: `(element_array - self.mu) / self.sigma`,
elementwise, preserving the shape of the input. -/
def GaussianPrior.compute_lnprob (p : GaussianPrior) : NPIn → NPVal
  | .scalar e => .scalar (.fin ((e - p.mu) / p.sigma))
  | .arr xs => .arr (xs.map fun e => FVal.fin ((e - p.mu) / p.sigma))

/-- `JeffreysPrior.__init__` stores the bounds and precomputes their logs. -/
structure JeffreysPrior where
  minval : ℝ
  maxval : ℝ
  logmin : ℝ
  logmax : ℝ

/-- Construction of a `JeffreysPrior`: `logmin = np.log(minval)`,
`logmax = np.log(maxval)`. -/
def JeffreysPrior.init (minval maxval : ℝ) : JeffreysPrior :=
  ⟨minval, maxval, Real.log minval, Real.log maxval⟩

/-- `JeffreysPrior.draw_samples`: the uniform draws in `[logmin, logmax]`
are passed in as `u`; each is mapped through `np.exp`. -/
def JeffreysPrior.draw_samples (_p : JeffreysPrior) (u : List ℝ) : List ℝ :=
  u.map Real.exp

/-- `JeffreysPrior.compute_lnprob`: `np.zeros(np.size(element_array))`, then
`-np.inf` written at the indices `np.where` finds out of bounds (strictly
above `maxval` or strictly below `minval`). -/
def JeffreysPrior.compute_lnprob (p : JeffreysPrior) (x : NPIn) : NPVal :=
  NPVal.arr (List.zipWith
    (fun e v => if e > p.maxval ∨ e < p.minval then FVal.negInf else v)
    x.toList (List.replicate x.size (FVal.fin 0)))

/-- `UniformPrior.__init__` stores the bounds. -/
structure UniformPrior where
  minval : ℝ
  maxval : ℝ

/-- `UniformPrior.compute_lnprob`: identical body to the Jeffreys one —
zeros of length `np.size(element_array)` with `-np.inf` at the strictly
out-of-bounds positions. -/
def UniformPrior.compute_lnprob (p : UniformPrior) (x : NPIn) : NPVal :=
  NPVal.arr (List.zipWith
    (fun e v => if e > p.maxval ∨ e < p.minval then FVal.negInf else v)
    x.toList (List.replicate x.size (FVal.fin 0)))

/-- `SinPrior.__init__` takes nothing and stores nothing. -/
structure SinPrior

/-- `SinPrior.draw_samples`: the uniform draws in `[-1, 1]` are passed in as
`u`; each is mapped through `np.arccos`. -/
def SinPrior.draw_samples (_p : SinPrior) (u : List ℝ) : List ℝ :=
  u.map Real.arccos

/-- `SinPrior.compute_lnprob`: `np.sin(element_array)`, elementwise,
preserving the shape of the input. -/
def SinPrior.compute_lnprob (_p : SinPrior) : NPIn → NPVal
  | .scalar e => .scalar (.fin (Real.sin e))
  | .arr xs => .arr (xs.map fun e => FVal.fin (Real.sin e))

/-- `LinearPrior.__init__(self, m, b): pass` — the arguments are
discarded and nothing is stored. -/
structure LinearPrior

/-- Construction of a `LinearPrior` discards `m` and `b`. -/
def LinearPrior.init (_m _b : ℝ) : LinearPrior := ⟨⟩

/-- the body of `LinearPrior.draw_samples` is `pass`, so a call returns
`None`. -/
def LinearPrior.draw_samples (_p : LinearPrior) (_num_samples : ℕ) :
    Option (List ℝ) :=
  none

/-- the body of `LinearPrior.compute_lnprob` is `pass`, so a call returns
`None`. -/
def LinearPrior.compute_lnprob (_p : LinearPrior) (_x : NPIn) : Option NPVal :=
  none

/-- A prior object: one of the five concrete subclasses of the abstract
`Prior` class. -/
inductive Prior where
  | gaussian (p : GaussianPrior)
  | jeffreys (p : JeffreysPrior)
  | uniform (p : UniformPrior)
  | sine (p : SinPrior)
  | linear (p : LinearPrior)

/-- Dynamic dispatch of `compute_lnprob`.  `LinearPrior` returns `None`,
modelled as `none`; every other variant returns a value. -/
def Prior.compute_lnprob : Prior → NPIn → Option NPVal
  | .gaussian p, x => some (p.compute_lnprob x)
  | .jeffreys p, x => some (p.compute_lnprob x)
  | .uniform p, x => some (p.compute_lnprob x)
  | .sine p, x => some (p.compute_lnprob x)
  | .linear p, x => p.compute_lnprob x

def Prior.isLinear : Prior → Bool
  | .linear _ => true
  | _ => false

/-- The priors whose `compute_lnprob` builds its result with
`np.zeros(np.size(x))` and hence returns an array even on scalar input. -/
def Prior.isBounded : Prior → Bool
  | .jeffreys _ => true
  | .uniform _ => true
  | _ => false

/-- The loop of `all_lnpriors`:
`for param, prior in ...: logp += prior.compute_lnprob(param)`.
A `None` result from `LinearPrior` makes the `+=` fail, modelled by
propagating `none`. -/
def lnpriorLoop : NPVal → List (ℝ × Prior) → Option NPVal
  | logp, [] => some logp
  | logp, (param, prior) :: rest =>
      match prior.compute_lnprob (NPIn.scalar param) with
      | none => none
      | some v => lnpriorLoop (npAdd logp v) rest

/-- `all_lnpriors(params, priors)`: `logp = 0.` then
`for param, prior in zip(params, priors): logp += prior.compute_lnprob(param)`. -/
def all_lnpriors (params : List ℝ) (priors : List Prior) : Option NPVal :=
  lnpriorLoop (NPVal.scalar (FVal.fin 0)) (params.zip priors)

/-! ### Helper lemmas -/

theorem zipWith_replicate_fin {α β γ : Type} (f : α → β → γ) (c : β)
    (xs : List α) :
    List.zipWith f xs (List.replicate xs.length c) = xs.map (fun a => f a c) := by
  induction xs with
  | nil => rfl
  | cons x xs ih => simp [List.replicate_succ, ih]

theorem getD_map_of_lt {α β : Type} (f : α → β) (d : β) (d0 : α)
    (xs : List α) :
    ∀ i, i < xs.length → (xs.map f).getD i d = f (xs.getD i d0) := by
  induction xs with
  | nil => intro i hi; simp at hi
  | cons x xs ih =>
      intro i hi
      cases i with
      | zero => rfl
      | succ j => simpa using ih j (by simpa using hi)

theorem FVal.zero_add_left (v : FVal) : FVal.add (FVal.fin 0) v = v := by
  cases v <;> simp [FVal.add]

theorem npAdd_zero_left (v : NPVal) :
    npAdd (NPVal.scalar (FVal.fin 0)) v = v := by
  cases v <;> simp [npAdd, FVal.zero_add_left]

theorem npAdd_isArr_left (as : List FVal) (w : NPVal) :
    (npAdd (NPVal.arr as) w).isArr = true := by
  cases w with
  | scalar b => simp [npAdd, NPVal.isArr]
  | arr bs =>
      simp only [npAdd]
      split
      · simp [NPVal.isArr]
      · split <;> simp [NPVal.isArr]

theorem npAdd_isArr_right (v : NPVal) (bs : List FVal) :
    (npAdd v (NPVal.arr bs)).isArr = true := by
  cases v with
  | scalar a => simp [npAdd, NPVal.isArr]
  | arr as => exact npAdd_isArr_left as (NPVal.arr bs)

theorem lnpriorLoop_isArr (l : List (ℝ × Prior)) :
    ∀ (logp r : NPVal), logp.isArr = true →
      lnpriorLoop logp l = some r → r.isArr = true := by
  induction l with
  | nil =>
      intro logp r h e
      simp [lnpriorLoop] at e
      exact e ▸ h
  | cons hd rest ih =>
      intro logp r h e
      obtain ⟨param, prior⟩ := hd
      rcases hc : prior.compute_lnprob (NPIn.scalar param) with _ | v
      · rw [lnpriorLoop, hc] at e
        exact absurd e (by simp)
      · rw [lnpriorLoop, hc] at e
        cases logp with
        | scalar v0 => simp [NPVal.isArr] at h
        | arr as => exact ih (npAdd (NPVal.arr as) v) r (npAdd_isArr_left as v) e

theorem bounded_lnprob_arr (p : Prior) (x : ℝ) (h : p.isBounded = true) :
    ∃ w, p.compute_lnprob (NPIn.scalar x) = some (NPVal.arr [w]) := by
  cases p with
  | jeffreys q => exact ⟨_, rfl⟩
  | uniform q => exact ⟨_, rfl⟩
  | gaussian q => simp [Prior.isBounded] at h
  | sine q => simp [Prior.isBounded] at h
  | linear q => simp [Prior.isBounded] at h

theorem lnpriorLoop_bounded_isArr (l : List (ℝ × Prior)) :
    ∀ (logp r : NPVal), lnpriorLoop logp l = some r →
      (∃ pq ∈ l, Prior.isBounded pq.2 = true) → r.isArr = true := by
  induction l with
  | nil =>
      intro logp r _ hex
      simp at hex
  | cons hd rest ih =>
      intro logp r e hex
      obtain ⟨param, prior⟩ := hd
      rcases hb : prior.isBounded with _ | _
      · rcases hc : prior.compute_lnprob (NPIn.scalar param) with _ | v
        · rw [lnpriorLoop, hc] at e
          exact absurd e (by simp)
        · rw [lnpriorLoop, hc] at e
          obtain ⟨pq, hmem, hbd⟩ := hex
          rcases List.mem_cons.mp hmem with hh | ht
          · rw [hh] at hbd
            simp only at hbd
            rw [hbd] at hb
            exact absurd hb (by simp)
          · exact ih _ r e ⟨pq, ht, hbd⟩
      · obtain ⟨w, hw⟩ := bounded_lnprob_arr prior param hb
        rw [lnpriorLoop, hw] at e
        exact lnpriorLoop_isArr rest _ r (npAdd_isArr_right logp [w]) e

theorem nonlinear_lnprob_isSome (p : Prior) (x : ℝ) (h : p.isLinear = false) :
    ∃ v, p.compute_lnprob (NPIn.scalar x) = some v := by
  cases p with
  | gaussian q => exact ⟨_, rfl⟩
  | jeffreys q => exact ⟨_, rfl⟩
  | uniform q => exact ⟨_, rfl⟩
  | sine q => exact ⟨_, rfl⟩
  | linear q => simp [Prior.isLinear] at h

theorem lnpriorLoop_isSome (l : List (ℝ × Prior)) :
    ∀ logp : NPVal, (∀ pq ∈ l, Prior.isLinear pq.2 = false) →
      (lnpriorLoop logp l).isSome = true := by
  induction l with
  | nil => intro logp _; rfl
  | cons hd rest ih =>
      intro logp h
      obtain ⟨param, prior⟩ := hd
      obtain ⟨v, hv⟩ :=
        nonlinear_lnprob_isSome prior param (h (param, prior) (by simp))
      rw [lnpriorLoop, hv]
      exact ih _ (fun pq hpq => h pq (List.mem_cons_of_mem _ hpq))

theorem zip_take_eq {α β : Type} (l : List α) :
    ∀ l' : List β, l.zip l' = (l.take l'.length).zip (l'.take l.length) := by
  induction l with
  | nil => intro l'; simp
  | cons a l ih =>
      intro l'
      cases l' with
      | nil => simp
      | cons b l' => simp [ih l']

/-! ### Claims -/

/-- C1 counterexample: the input `-(pi/2)` lies outside `SinPrior`'s support
`[0, pi]`, yet `compute_lnprob` maps it to the finite value `sin(-(pi/2)) = -1`,
not to negative infinity.  This refutes the claim that every concrete prior
variant maps out-of-support inputs to negative infinity. -/
theorem sin_lnprob_out_of_support :
    (-(Real.pi / 2) < 0) ∧
    SinPrior.compute_lnprob ⟨⟩ (NPIn.scalar (-(Real.pi / 2))) =
      NPVal.scalar (FVal.fin (-1)) ∧
    NPVal.scalar (FVal.fin (-1)) ≠ NPVal.scalar FVal.negInf := by
  refine ⟨neg_lt_zero.mpr Real.pi_div_two_pos, ?_, by simp⟩
  simp [SinPrior.compute_lnprob, Real.sin_neg, Real.sin_pi_div_two]

/-- C1 (amended): for `JeffreysPrior` and `UniformPrior`, every input value
strictly outside `[minval, maxval]` is mapped to negative infinity;
`GaussianPrior`'s support is the whole real line, so no input lies outside
it; `SinPrior` does not satisfy the claim — its `compute_lnprob` returns
`sin(x)` for every `x`, including values outside `[0, pi]`. -/
theorem out_of_support_lnprob :
    (∀ (p : JeffreysPrior) (x : ℝ), x > p.maxval ∨ x < p.minval →
        p.compute_lnprob (NPIn.scalar x) = NPVal.arr [FVal.negInf]) ∧
    (∀ (p : UniformPrior) (x : ℝ), x > p.maxval ∨ x < p.minval →
        p.compute_lnprob (NPIn.scalar x) = NPVal.arr [FVal.negInf]) ∧
    (∀ (p : SinPrior) (x : ℝ),
        p.compute_lnprob (NPIn.scalar x) = NPVal.scalar (FVal.fin (Real.sin x))) := by
  refine ⟨fun p x h => ?_, fun p x h => ?_, fun p x => rfl⟩
  · simp [JeffreysPrior.compute_lnprob, NPIn.toList, NPIn.size, h]
  · simp [UniformPrior.compute_lnprob, NPIn.toList, NPIn.size, h]

/-- Witness for the amended C1 at a concrete input: `JeffreysPrior(1, 100)`
maps the out-of-bounds scalar `200` to a one-element array holding `-inf`. -/
theorem out_of_support_lnprob_witness :
    JeffreysPrior.compute_lnprob (JeffreysPrior.init 1 100) (NPIn.scalar 200) =
      NPVal.arr [FVal.negInf] :=
  out_of_support_lnprob.1 (JeffreysPrior.init 1 100) 200
    (Or.inl (by norm_num [JeffreysPrior.init]))

/-- C2: `GaussianPrior(mu, sigma).compute_lnprob` returns `(x - mu) / sigma`
elementwise, and `GaussianPrior(1.3, 0.2).compute_lnprob([1.3]) = [0.0]`. -/
theorem gaussian_lnprob_formula :
    (∀ (p : GaussianPrior) (xs : List ℝ) (i : ℕ), i < xs.length →
        ∃ ys, p.compute_lnprob (NPIn.arr xs) = NPVal.arr ys ∧
          ys.getD i FVal.negInf = FVal.fin ((xs.getD i 0 - p.mu) / p.sigma)) ∧
    GaussianPrior.compute_lnprob ⟨1.3, 0.2⟩ (NPIn.arr [1.3]) =
      NPVal.arr [FVal.fin 0] := by
  constructor
  · intro p xs i hi
    refine ⟨_, rfl, ?_⟩
    simpa using getD_map_of_lt (fun e => FVal.fin ((e - p.mu) / p.sigma))
      FVal.negInf 0 xs i hi
  · have h : ((1.3 : ℝ) - 1.3) / 0.2 = 0 := by norm_num
    simp [GaussianPrior.compute_lnprob, h]

/-- Witness for C2 at a concrete input: the elementwise formula evaluated at
`GaussianPrior(1.3, 0.2)`, input `[1.3]`, index `0`. -/
theorem gaussian_lnprob_formula_witness :
    ∃ ys, GaussianPrior.compute_lnprob ⟨1.3, 0.2⟩ (NPIn.arr [1.3]) =
        NPVal.arr ys ∧
      ys.getD 0 FVal.negInf = FVal.fin (([(1.3 : ℝ)].getD 0 0 - 1.3) / 0.2) :=
  gaussian_lnprob_formula.1 ⟨1.3, 0.2⟩ [1.3] 0 (by norm_num)

/-- C3: for `JeffreysPrior` and `UniformPrior`, `compute_lnprob` returns
`-inf` at exactly the positions whose value is strictly greater than
`maxval` or strictly less than `minval`, and `0` at every other position;
values exactly equal to `minval` or `maxval` yield `0` (inclusive bounds). -/
theorem bounded_lnprob_elementwise :
    (∀ (p : JeffreysPrior) (xs : List ℝ),
        p.compute_lnprob (NPIn.arr xs) =
          NPVal.arr (xs.map fun e =>
            if e > p.maxval ∨ e < p.minval then FVal.negInf else FVal.fin 0)) ∧
    (∀ (p : UniformPrior) (xs : List ℝ),
        p.compute_lnprob (NPIn.arr xs) =
          NPVal.arr (xs.map fun e =>
            if e > p.maxval ∨ e < p.minval then FVal.negInf else FVal.fin 0)) ∧
    (∀ mn mx : ℝ, mn ≤ mx →
        JeffreysPrior.compute_lnprob (JeffreysPrior.init mn mx)
            (NPIn.arr [mn, mx]) = NPVal.arr [FVal.fin 0, FVal.fin 0] ∧
        UniformPrior.compute_lnprob ⟨mn, mx⟩ (NPIn.arr [mn, mx]) =
          NPVal.arr [FVal.fin 0, FVal.fin 0]) := by
  have hj : ∀ (p : JeffreysPrior) (xs : List ℝ),
      p.compute_lnprob (NPIn.arr xs) =
        NPVal.arr (xs.map fun e =>
          if e > p.maxval ∨ e < p.minval then FVal.negInf else FVal.fin 0) := by
    intro p xs
    simp [JeffreysPrior.compute_lnprob, NPIn.toList, NPIn.size,
      zipWith_replicate_fin]
  have hu : ∀ (p : UniformPrior) (xs : List ℝ),
      p.compute_lnprob (NPIn.arr xs) =
        NPVal.arr (xs.map fun e =>
          if e > p.maxval ∨ e < p.minval then FVal.negInf else FVal.fin 0) := by
    intro p xs
    simp [UniformPrior.compute_lnprob, NPIn.toList, NPIn.size,
      zipWith_replicate_fin]
  refine ⟨hj, hu, fun mn mx h => ?_⟩
  have h1 : ¬(mn > mx ∨ mn < mn) := not_or.mpr ⟨not_lt.mpr h, lt_irrefl mn⟩
  have h2 : ¬(mx > mx ∨ mx < mn) := not_or.mpr ⟨lt_irrefl mx, not_lt.mpr h⟩
  constructor
  · rw [hj]
    simp [JeffreysPrior.init, h1, h2, h]
  · rw [hu]
    simp [h1, h2, h]

/-- Witness for C3 at a concrete input: with bounds `1 <= 100`, both priors
map the boundary array `[1, 100]` to `[0, 0]`. -/
theorem bounded_lnprob_elementwise_witness :
    JeffreysPrior.compute_lnprob (JeffreysPrior.init 1 100)
        (NPIn.arr [1, 100]) = NPVal.arr [FVal.fin 0, FVal.fin 0] ∧
    UniformPrior.compute_lnprob ⟨1, 100⟩ (NPIn.arr [1, 100]) =
      NPVal.arr [FVal.fin 0, FVal.fin 0] :=
  bounded_lnprob_elementwise.2.2 1 100 (by norm_num)

/-- C4 counterexample: `all_lnpriors([5], [UniformPrior(0, 10)])` returns the
one-element array `[0.0]`, not a scalar, so the claim that `all_lnpriors`
returns the scalar sum of the results fails as stated. -/
theorem all_lnpriors_scalar_counterexample :
    all_lnpriors [5] [Prior.uniform ⟨0, 10⟩] = some (NPVal.arr [FVal.fin 0]) ∧
    NPVal.isScalar (NPVal.arr [FVal.fin 0]) = false := by
  constructor
  · norm_num [all_lnpriors, lnpriorLoop, Prior.compute_lnprob,
      UniformPrior.compute_lnprob, NPIn.toList, NPIn.size, npAdd, FVal.add]
  · rfl

/-- C4 (amended): `all_lnpriors` pairs parameters and priors positionally and
accumulates the `compute_lnprob` results with numpy addition starting from the
scalar `0.0`; in particular, when `A.compute_lnprob(p1)` and
`B.compute_lnprob(p2)` return values `a` and `b`,
`all_lnpriors([p1, p2], [A, B])` returns their numpy sum `a + b`.  The result
is not always a scalar: it is a one-element array whenever a Jeffreys or
Uniform prior occurs in the list. -/
theorem all_lnpriors_pair_sum (p1 p2 : ℝ) (A B : Prior) (a b : NPVal)
    (ha : A.compute_lnprob (NPIn.scalar p1) = some a)
    (hb : B.compute_lnprob (NPIn.scalar p2) = some b) :
    all_lnpriors [p1, p2] [A, B] = some (npAdd a b) := by
  have hz : List.zip [p1, p2] [A, B] = [(p1, A), (p2, B)] := rfl
  rw [all_lnpriors, hz, lnpriorLoop, ha]
  show lnpriorLoop (npAdd (NPVal.scalar (FVal.fin 0)) a) [(p2, B)] =
    some (npAdd a b)
  rw [npAdd_zero_left, lnpriorLoop, hb]
  rfl

/-- Witness for the amended C4 at a concrete input: a Gaussian and a Sine
prior on the parameter vector `[1, 2]`. -/
theorem all_lnpriors_pair_sum_witness :
    all_lnpriors [1, 2] [Prior.gaussian ⟨0, 1⟩, Prior.sine ⟨⟩] =
      some (npAdd (NPVal.scalar (FVal.fin ((1 - 0) / 1)))
        (NPVal.scalar (FVal.fin (Real.sin 2)))) :=
  all_lnpriors_pair_sum 1 2 (Prior.gaussian ⟨0, 1⟩) (Prior.sine ⟨⟩)
    (NPVal.scalar (FVal.fin ((1 - 0) / 1)))
    (NPVal.scalar (FVal.fin (Real.sin 2))) rfl rfl

/-- C5: on parameter vectors and prior lists of unequal lengths,
`all_lnpriors` iterates only over the shorter of the two sequences (`zip`
silently truncates), and the mismatch raises no error — whenever none of the
used priors is the unimplemented `LinearPrior`, a value is returned. -/
theorem all_lnpriors_truncates (params : List ℝ) (priors : List Prior)
    (_hne : params.length ≠ priors.length) :
    all_lnpriors params priors =
      all_lnpriors (params.take priors.length) (priors.take params.length) ∧
    ((∀ p ∈ priors.take params.length, p.isLinear = false) →
      (all_lnpriors params priors).isSome = true) := by
  constructor
  · rw [all_lnpriors, all_lnpriors, zip_take_eq params priors]
  · intro hnl
    rw [all_lnpriors]
    apply lnpriorLoop_isSome
    intro pq hmem
    rw [zip_take_eq params priors] at hmem
    obtain ⟨a, b⟩ := pq
    exact hnl b (List.of_mem_zip hmem).2

/-- Witness for C5 at a concrete input: two parameters against a single
Gaussian prior. -/
theorem all_lnpriors_truncates_witness :
    (all_lnpriors [1, 2] [Prior.gaussian ⟨0, 1⟩] =
      all_lnpriors ([1, 2].take [Prior.gaussian ⟨0, 1⟩].length)
        ([Prior.gaussian ⟨0, 1⟩].take [(1 : ℝ), 2].length)) ∧
    (all_lnpriors [1, 2] [Prior.gaussian ⟨0, 1⟩]).isSome = true := by
  have h := all_lnpriors_truncates [1, 2] [Prior.gaussian ⟨0, 1⟩] (by simp)
  refine ⟨h.1, h.2 ?_⟩
  intro p hp
  simp at hp
  rw [hp]
  rfl

/-- C10: for a scalar input `x`, the `compute_lnprob` of `JeffreysPrior` and
of `UniformPrior` returns a one-element array (length `np.size(x) = 1`), not
a scalar; consequently, whenever such a prior occurs among the priors paired
with parameters, the value `all_lnpriors` accumulates is array-shaped. -/
theorem scalar_input_gives_array :
    (∀ (p : JeffreysPrior) (x : ℝ), ∃ w,
        p.compute_lnprob (NPIn.scalar x) = NPVal.arr [w]) ∧
    (∀ (p : UniformPrior) (x : ℝ), ∃ w,
        p.compute_lnprob (NPIn.scalar x) = NPVal.arr [w]) ∧
    (∀ (params : List ℝ) (priors : List Prior) (r : NPVal),
        all_lnpriors params priors = some r →
        (∃ pq ∈ params.zip priors, Prior.isBounded pq.2 = true) →
        r.isArr = true) := by
  refine ⟨fun p x => ⟨_, rfl⟩, fun p x => ⟨_, rfl⟩,
    fun params priors r h hex => ?_⟩
  exact lnpriorLoop_bounded_isArr (params.zip priors) _ r h hex

/-- Witness for C10 at a concrete input: `all_lnpriors([50], [JeffreysPrior(1,
100)])` returns the array `[0.0]`, which is array-shaped. -/
theorem scalar_input_gives_array_witness :
    NPVal.isArr (NPVal.arr [FVal.fin 0]) = true := by
  refine scalar_input_gives_array.2.2 [50]
    [Prior.jeffreys (JeffreysPrior.init 1 100)] (NPVal.arr [FVal.fin 0]) ?_ ?_
  · norm_num [all_lnpriors, lnpriorLoop, Prior.compute_lnprob,
      JeffreysPrior.compute_lnprob, JeffreysPrior.init, NPIn.toList,
      NPIn.size, npAdd, FVal.add]
  · exact ⟨(50, Prior.jeffreys (JeffreysPrior.init 1 100)), by simp, rfl⟩

/-- C6: when the underlying uniform draws lie in `[-1, 1]`, every value in the
list returned by `SinPrior.draw_samples` lies in the closed interval
`[0, pi]`, because each sample is `arccos` of such a draw. -/
theorem sin_draw_samples_range (u : List ℝ)
    (_hu : ∀ v ∈ u, -1 ≤ v ∧ v ≤ 1) :
    ∀ y ∈ SinPrior.draw_samples ⟨⟩ u, 0 ≤ y ∧ y ≤ Real.pi := by
  intro y hy
  simp [SinPrior.draw_samples] at hy
  obtain ⟨v, hv, rfl⟩ := hy
  exact ⟨Real.arccos_nonneg v, Real.arccos_le_pi v⟩

/-- Witness for C6 at a concrete input: the sample drawn from the uniform
value `0` lies in `[0, pi]`. -/
theorem sin_draw_samples_range_witness :
    0 ≤ Real.arccos 0 ∧ Real.arccos 0 ≤ Real.pi :=
  sin_draw_samples_range [0]
    (by
      intro v hv
      rw [List.mem_singleton] at hv
      rw [hv]
      constructor <;> norm_num)
    (Real.arccos 0) (by simp [SinPrior.draw_samples])

/-- C7: for `0 < minval < maxval`, when the underlying uniform draws lie in
`[logmin, logmax]`, every sample returned by `JeffreysPrior.draw_samples`
(the exponential of a draw) lies in the closed interval
`[minval, maxval]`. -/
theorem jeffreys_draw_samples_range (minval maxval : ℝ) (u : List ℝ)
    (hmin : 0 < minval) (hlt : minval < maxval)
    (hu : ∀ v ∈ u, (JeffreysPrior.init minval maxval).logmin ≤ v ∧
        v ≤ (JeffreysPrior.init minval maxval).logmax) :
    ∀ y ∈ (JeffreysPrior.init minval maxval).draw_samples u,
      minval ≤ y ∧ y ≤ maxval := by
  intro y hy
  simp [JeffreysPrior.draw_samples] at hy
  obtain ⟨v, hv, rfl⟩ := hy
  obtain ⟨h1, h2⟩ := hu v hv
  simp [JeffreysPrior.init] at h1 h2
  constructor
  · calc minval = Real.exp (Real.log minval) := (Real.exp_log hmin).symm
      _ ≤ Real.exp v := Real.exp_le_exp.mpr h1
  · calc Real.exp v ≤ Real.exp (Real.log maxval) := Real.exp_le_exp.mpr h2
      _ = maxval := Real.exp_log (hmin.trans hlt)

/-- Witness for C7 at a concrete input: with bounds `[1, 2]` the draw `0`
(which lies in `[log 1, log 2]`) yields the sample `exp 0` in `[1, 2]`. -/
theorem jeffreys_draw_samples_range_witness :
    1 ≤ Real.exp 0 ∧ Real.exp 0 ≤ 2 :=
  jeffreys_draw_samples_range 1 2 [0] (by norm_num) (by norm_num)
    (by
      intro v hv
      rw [List.mem_singleton] at hv
      rw [hv]
      constructor
      · simp [JeffreysPrior.init, Real.log_one]
      · simp only [JeffreysPrior.init]
        exact Real.log_nonneg (by norm_num))
    (Real.exp 0) (by simp [JeffreysPrior.draw_samples])

/-- C8: `SinPrior.compute_lnprob` returns `sin(x)` elementwise, and on the
input `[0, pi/2, pi]` it returns `[0.0, 1.0, 0.0]`. -/
theorem sin_lnprob_formula :
    (∀ (p : SinPrior) (xs : List ℝ),
        p.compute_lnprob (NPIn.arr xs) =
          NPVal.arr (xs.map fun e => FVal.fin (Real.sin e))) ∧
    SinPrior.compute_lnprob ⟨⟩ (NPIn.arr [0, Real.pi / 2, Real.pi]) =
      NPVal.arr [FVal.fin 0, FVal.fin 1, FVal.fin 0] := by
  refine ⟨fun p xs => rfl, ?_⟩
  simp [SinPrior.compute_lnprob, Real.sin_pi, Real.sin_pi_div_two]

/-- C9: `LinearPrior`'s construction stores nothing (any two constructed
instances are equal), and both `draw_samples` and `compute_lnprob` return
`None` — never a zero, empty, or otherwise usable value. -/
theorem linear_prior_unimplemented (m b : ℝ) (n : ℕ) (x : NPIn) :
    (LinearPrior.init m b).draw_samples n = none ∧
    (LinearPrior.init m b).compute_lnprob x = none ∧
    LinearPrior.init m b = LinearPrior.init 0 0 :=
  ⟨rfl, rfl, rfl⟩

end
